import Mathlib

/-!
Verification of the selection-and-archiving pipeline of the Linux backup
tool (`src/backup.rs`, `src/utils.rs`) against its specification.

The embedding models:
* the persisted metadata record and its JSON file (`utils.rs`);
* the filesystem as a tree of named files and directories, walked in the
  depth-first order of `walkdir::WalkDir` (directory entry before its
  contents, siblings in order), with `filter_entry` pruning;
* per-entry timestamps, `File::open` success and archive-append success as
  functions of the absolute path;
* each backup routine of `backup.rs` (`backup_directory`,
  `incremental_backup`, `differential_backup`, `backup_with_exclusions`,
  `incremental_backup_with_exclusions`,
  `differential_backup_with_exclusions`) and the two orchestrators
  (`backup_selected_directories`, `backup_system`) after their interactive
  prompts, as functions returning `Except Unit` (the `?` operator) together
  with the resulting state of the metadata file.
-/

/-- `str::starts_with` of Rust, on the character sequence of a string
(byte prefixing of valid UTF-8 agrees with character prefixing). -/
def strStartsWith (pre s : String) : Bool :=
  pre.data.isPrefixOf s.data

/-- `str::contains(char)` of Rust, on the character sequence of a
string. -/
def strContains (s : String) (c : Char) : Bool :=
  s.data.contains c

/-- `path.strip_prefix("/").unwrap_or(path)` of `backup.rs`: the archive
entry name is the absolute path with its leading separator removed, and an
already-relative path is kept unchanged. -/
def stripSlash (p : String) : String :=
  if strStartsWith "/" p then p.drop 1 else p

/-- The persisted record of `utils.rs` (`BackupMetadata`): the
`backup_history` map is carried as an association list. -/
structure BackupMetadata where
  last_backup_time : Option Nat
  original_backup_time : Option Nat
  backup_history : List (String × Nat)
deriving DecidableEq

/-- `BackupType` of `utils.rs`. -/
inductive BackupType where
  | Full
  | Incremental
  | Differential
deriving DecidableEq

/-- State of the metadata file `backup_metadata.json`: absent, present but
not valid serialized metadata, or holding a metadata record. -/
inductive MetaFile where
  | absent
  | corrupt
  | valid (m : BackupMetadata)
deriving DecidableEq

/-- `utils::load_backup_metadata`: default record when the file does not
exist, parse failure propagated as an error otherwise. -/
def load_backup_metadata : MetaFile → Except Unit BackupMetadata
  | .absent => .ok ⟨none, none, []⟩
  | .corrupt => .error ()
  | .valid m => .ok m

/-- A forest of named filesystem nodes: `fileC n rest` is a file child
named `n` followed by its siblings, `dirC n cs rest` a directory child
named `n` with children `cs` followed by its siblings. -/
inductive Fsf where
  | nilF : Fsf
  | fileC : String → Fsf → Fsf
  | dirC : String → Fsf → Fsf → Fsf
deriving DecidableEq

/-- The node a walk root resolves to: a plain file, or a directory with a
forest of children. -/
inductive FsTree where
  | file : FsTree
  | dir : Fsf → FsTree
deriving DecidableEq

/-- One entry yielded by the walk: absolute path, directory flag, depth
below the walk root (the root itself has depth 0). -/
structure Entry where
  path : String
  isDir : Bool
  depth : Nat
deriving DecidableEq

/-- The live filesystem and archive environment a run sees: `lookup`
resolves a root path (`Path::exists`), `mtime`/`ctime` give the epoch
seconds of an entry's modified/created time when readable, `openOk` is
`File::open` succeeding, `appendOk` is the archive append succeeding, and
`expand` is `glob::glob` (`none` models a pattern error; the list holds
the concrete paths the pattern currently matches). -/
structure Fs where
  lookup : String → Option FsTree
  mtime : String → Option Nat
  ctime : String → Option Nat
  openOk : String → Bool
  appendOk : String → Bool
  expand : String → Option (List String)

/-- `WalkDir` with `filter_entry pred` over a forest of children of the
directory at `parent`, at depth `d`: an entry failing `pred` is skipped,
and for a directory the whole subtree is skipped; siblings continue. -/
def walkF (pred : String → Bool) (parent : String) (d : Nat) : Fsf → List Entry
  | .nilF => []
  | .fileC n rest =>
      (if pred (parent ++ "/" ++ n) then [⟨parent ++ "/" ++ n, false, d⟩] else [])
        ++ walkF pred parent d rest
  | .dirC n cs rest =>
      (if pred (parent ++ "/" ++ n) then
        ⟨parent ++ "/" ++ n, true, d⟩ :: walkF pred (parent ++ "/" ++ n) (d + 1) cs
       else [])
        ++ walkF pred parent d rest

/-- The full filtered walk from a root path: the root entry has depth 0
and is itself subject to the predicate. -/
def walkTreeF (pred : String → Bool) (rootPath : String) : FsTree → List Entry
  | .file => if pred rootPath then [⟨rootPath, false, 0⟩] else []
  | .dir cs =>
      if pred rootPath then ⟨rootPath, true, 0⟩ :: walkF pred rootPath 1 cs else []

/-- One record written to the archive: the entry's absolute path and its
in-archive name. -/
structure Record where
  path : String
  name : String
deriving DecidableEq

/-- The per-entry loop of `backup_directory` / `backup_with_exclusions`:
a file is appended when `File::open` succeeds (an open failure is a
warning and the entry is skipped), a directory is appended when its depth
is positive; a failing archive append (`?`) aborts immediately. -/
def appendEntries (fs : Fs) : List Entry → Except Unit (List Record)
  | [] => .ok []
  | e :: es =>
    if e.isDir = false then
      if fs.openOk e.path then
        if fs.appendOk e.path then
          match appendEntries fs es with
          | .ok rs => .ok (⟨e.path, stripSlash e.path⟩ :: rs)
          | .error u => .error u
        else .error ()
      else appendEntries fs es
    else if e.depth > 0 then
      if fs.appendOk e.path then
        match appendEntries fs es with
        | .ok rs => .ok (⟨e.path, stripSlash e.path⟩ :: rs)
        | .error u => .error u
      else .error ()
    else appendEntries fs es

/-- The per-entry loop of `incremental_backup` / `differential_backup`
(and their `_with_exclusions` variants, whose bodies are identical up to
the reference timestamp `ref`): a file is appended when its modified time
is readable and strictly greater than `ref` and `File::open` succeeds; a
directory of positive depth is appended when its creation time is
readable and strictly greater than `ref`; an unreadable timestamp skips
the entry silently; a failing archive append aborts. -/
def appendEntriesTs (fs : Fs) (ref : Nat) : List Entry → Except Unit (List Record)
  | [] => .ok []
  | e :: es =>
    if e.isDir = false then
      match fs.mtime e.path with
      | some m =>
        if ref < m then
          if fs.openOk e.path then
            if fs.appendOk e.path then
              match appendEntriesTs fs ref es with
              | .ok rs => .ok (⟨e.path, stripSlash e.path⟩ :: rs)
              | .error u => .error u
            else .error ()
          else appendEntriesTs fs ref es
        else appendEntriesTs fs ref es
      | none => appendEntriesTs fs ref es
    else if e.depth > 0 then
      match fs.ctime e.path with
      | some c =>
        if ref < c then
          if fs.appendOk e.path then
            match appendEntriesTs fs ref es with
            | .ok rs => .ok (⟨e.path, stripSlash e.path⟩ :: rs)
            | .error u => .error u
          else .error ()
        else appendEntriesTs fs ref es
      | none => appendEntriesTs fs ref es
    else appendEntriesTs fs ref es

/-- One exclusion rule applied to one candidate path, as in the
`filter_entry` closures of `backup.rs`: a rule containing `*` is expanded
by `glob` and excludes the candidate when some expanded path is a string
prefix of it (a pattern error, or an errored expansion item, excludes
nothing); any other rule excludes by plain string prefix. -/
def ruleExcludes (fs : Fs) (path ex : String) : Bool :=
  if strContains ex '*' then
    match fs.expand ex with
    | some ps => ps.any (fun q => strStartsWith q path)
    | none => false
  else strStartsWith ex path

/-- `exclusions.iter().any(...)` of the `filter_entry` closures. -/
def excludesPath (fs : Fs) (exclusions : List String) (path : String) : Bool :=
  exclusions.any (fun ex => ruleExcludes fs path ex)

/-- `backup_directory` of `backup.rs`: a missing root warns and returns
`Ok`; otherwise the unfiltered walk is archived. -/
def backup_directory (fs : Fs) (dirPath : String) : Except Unit (List Record) :=
  match fs.lookup dirPath with
  | none => .ok []
  | some t => appendEntries fs (walkTreeF (fun _ => true) dirPath t)

/-- `incremental_backup` of `backup.rs`: reference is
`metadata.last_backup_time.unwrap_or(0)`. -/
def incremental_backup (fs : Fs) (dirPath : String) (metadata : BackupMetadata)
    (currentTime : Nat) : Except Unit (List Record) :=
  match fs.lookup dirPath with
  | none => .ok []
  | some t =>
      appendEntriesTs fs (metadata.last_backup_time.getD 0)
        (walkTreeF (fun _ => true) dirPath t)

/-- `differential_backup` of `backup.rs`: reference is
`metadata.original_backup_time.unwrap_or(0)`. -/
def differential_backup (fs : Fs) (dirPath : String) (metadata : BackupMetadata)
    (currentTime : Nat) : Except Unit (List Record) :=
  match fs.lookup dirPath with
  | none => .ok []
  | some t =>
      appendEntriesTs fs (metadata.original_backup_time.getD 0)
        (walkTreeF (fun _ => true) dirPath t)

/-- `backup_with_exclusions` of `backup.rs`: the walk is pruned by the
negated exclusion predicate, then archived as in `backup_directory`. -/
def backup_with_exclusions (fs : Fs) (dirPath : String) (exclusions : List String) :
    Except Unit (List Record) :=
  match fs.lookup dirPath with
  | none => .ok []
  | some t =>
      appendEntries fs
        (walkTreeF (fun p => !excludesPath fs exclusions p) dirPath t)

/-- `incremental_backup_with_exclusions` of `backup.rs`. -/
def incremental_backup_with_exclusions (fs : Fs) (dirPath : String)
    (exclusions : List String) (metadata : BackupMetadata) (currentTime : Nat) :
    Except Unit (List Record) :=
  match fs.lookup dirPath with
  | none => .ok []
  | some t =>
      appendEntriesTs fs (metadata.last_backup_time.getD 0)
        (walkTreeF (fun p => !excludesPath fs exclusions p) dirPath t)

/-- `differential_backup_with_exclusions` of `backup.rs`. -/
def differential_backup_with_exclusions (fs : Fs) (dirPath : String)
    (exclusions : List String) (metadata : BackupMetadata) (currentTime : Nat) :
    Except Unit (List Record) :=
  match fs.lookup dirPath with
  | none => .ok []
  | some t =>
      appendEntriesTs fs (metadata.original_backup_time.getD 0)
        (walkTreeF (fun p => !excludesPath fs exclusions p) dirPath t)

/-- Lines 135-137 (and 266-268) of `backup.rs`: a missing
`original_backup_time` is set to the run timestamp before any archiving. -/
def stageOriginal (m : BackupMetadata) (currentTime : Nat) : BackupMetadata :=
  if m.original_backup_time.isNone then
    { m with original_backup_time := some currentTime }
  else m

/-- The per-root loop of `backup_selected_directories` (lines 142-154):
each selected directory is archived with the chosen policy; a fatal error
aborts the loop. -/
def backupDirsPlain (fs : Fs) (btype : BackupType) (m : BackupMetadata)
    (currentTime : Nat) : List String → Except Unit (List Record)
  | [] => .ok []
  | d :: ds =>
    match (match btype with
           | .Full => backup_directory fs d
           | .Incremental => incremental_backup fs d m currentTime
           | .Differential => differential_backup fs d m currentTime) with
    | .error u => .error u
    | .ok rs =>
      match backupDirsPlain fs btype m currentTime ds with
      | .error u => .error u
      | .ok rs2 => .ok (rs ++ rs2)

/-- The core of `backup_selected_directories` after its prompts: load
metadata (parse errors fatal), stage `original_backup_time`, archive each
root, finish the archive, set `last_backup_time` and save. Every `?`
failure before the save leaves the metadata file untouched; a failing
save (`File::create` truncates first) may corrupt it. -/
def runSelectedBackup (fs : Fs) (dirs : List String) (btype : BackupType)
    (file : MetaFile) (currentTime : Nat) (finishOk saveOk : Bool) :
    Except Unit (List Record) × MetaFile :=
  match load_backup_metadata file with
  | .error u => (.error u, file)
  | .ok m0 =>
    let m1 := stageOriginal m0 currentTime
    match backupDirsPlain fs btype m1 currentTime dirs with
    | .error u => (.error u, file)
    | .ok recs =>
      if finishOk then
        let m2 := { m1 with last_backup_time := some currentTime }
        if saveOk then (.ok recs, .valid m2) else (.error (), .corrupt)
      else (.error (), file)

/-- The fixed exclusion list of `backup_system` (lines 250-254). -/
def exclude_dirs : List String :=
  ["/proc", "/sys", "/tmp", "/run", "/mnt", "/media",
   "/lost+found", "/dev", "/var/log", "/var/cache",
   "/var/tmp", "/root", "/home/*/.cache"]

/-- The root sequence of `backup_system`: `/var` and `/opt` only when
running as root. -/
def systemRoots (isRoot : Bool) : List String :=
  ["/home", "/etc", "/usr/local"] ++ (if isRoot then ["/var", "/opt"] else [])

/-- The per-root sequence of `backup_system` for the chosen policy, with
the fixed exclusion list. -/
def backupDirsExcl (fs : Fs) (btype : BackupType) (m : BackupMetadata)
    (currentTime : Nat) : List String → Except Unit (List Record)
  | [] => .ok []
  | d :: ds =>
    match (match btype with
           | .Full => backup_with_exclusions fs d exclude_dirs
           | .Incremental =>
               incremental_backup_with_exclusions fs d exclude_dirs m currentTime
           | .Differential =>
               differential_backup_with_exclusions fs d exclude_dirs m currentTime) with
    | .error u => .error u
    | .ok rs =>
      match backupDirsExcl fs btype m currentTime ds with
      | .error u => .error u
      | .ok rs2 => .ok (rs ++ rs2)

/-- The core of `backup_system` after its prompts: same metadata
lifecycle as `runSelectedBackup`, over the fixed roots and exclusions. -/
def runSystemBackup (fs : Fs) (btype : BackupType) (isRoot : Bool)
    (file : MetaFile) (currentTime : Nat) (finishOk saveOk : Bool) :
    Except Unit (List Record) × MetaFile :=
  match load_backup_metadata file with
  | .error u => (.error u, file)
  | .ok m0 =>
    let m1 := stageOriginal m0 currentTime
    match backupDirsExcl fs btype m1 currentTime (systemRoots isRoot) with
    | .error u => (.error u, file)
    | .ok recs =>
      if finishOk then
        let m2 := { m1 with last_backup_time := some currentTime }
        if saveOk then (.ok recs, .valid m2) else (.error (), .corrupt)
      else (.error (), file)

/-- Candidate `cand` equals `q` or is nested under it as a path-component
descendant. This follows the spec's words for the glob-exclusion
semantics, for comparison with the implementation's check. -/
def specNestedUnder (q cand : String) : Bool :=
  (cand == q) || strStartsWith (q ++ "/") cand

/-- The spec's glob-exclusion semantics: some concrete path the glob
expands to equals the candidate or has it as a path-component
descendant. -/
def specGlobExcludes (expansion : List String) (cand : String) : Bool :=
  expansion.any (fun q => specNestedUnder q cand)

/-- A filesystem with no roots, no timestamps, and no faults: the
smallest environment a run can see, used to instantiate witnesses. -/
def fsTriv : Fs :=
  { lookup := fun _ => none
    mtime := fun _ => none
    ctime := fun _ => none
    openOk := fun _ => true
    appendOk := fun _ => true
    expand := fun _ => none }

/-- A one-directory, one-file filesystem: `/d` holds the single file
`/d/f` with modified time 500, every open and append succeeds. -/
def fsOneFile : Fs :=
  { lookup := fun p => if p = "/d" then some (.dir (.fileC "f" .nilF)) else none
    mtime := fun p => if p = "/d/f" then some 500 else none
    ctime := fun _ => none
    openOk := fun _ => true
    appendOk := fun _ => true
    expand := fun _ => none }

/-- The record, if any, the timestamp-gated loop emits for one entry when
no open or append fault occurs: files by modified time, positive-depth
directories by creation time, strict comparison against `ref`. -/
def tsRecord (fs : Fs) (ref : Nat) (e : Entry) : Option Record :=
  if e.isDir = false then
    match fs.mtime e.path with
    | some m => if ref < m then some ⟨e.path, stripSlash e.path⟩ else none
    | none => none
  else if e.depth > 0 then
    match fs.ctime e.path with
    | some c => if ref < c then some ⟨e.path, stripSlash e.path⟩ else none
    | none => none
  else none

/-- A filesystem whose only glob pattern `/home/*/.cache` expands to the
single concrete path `/home/alice/.cache`. -/
def fsGlob : Fs :=
  { lookup := fun _ => none
    mtime := fun _ => none
    ctime := fun _ => none
    openOk := fun _ => true
    appendOk := fun _ => true
    expand := fun pat => if pat = "/home/*/.cache" then some ["/home/alice/.cache"] else none }

/-- A filesystem whose root `/r` holds a file `/r/a` and a directory
`/r/log` containing the file `/r/log/x`, with no faults. -/
def fsExcl : Fs :=
  { lookup := fun p => if p = "/r" then
        some (.dir (.fileC "a" (.dirC "log" (.fileC "x" .nilF) .nilF))) else none
    mtime := fun _ => none
    ctime := fun _ => none
    openOk := fun _ => true
    appendOk := fun _ => true
    expand := fun _ => none }

/-! ## Helper lemmas -/

/-- String prefixing is transitive through path extension: a rule that is
a prefix of a directory path is a prefix of anything below it. -/
theorem strStartsWith_trans_sep {rule d p : String}
    (h1 : strStartsWith rule d = true) (h2 : strStartsWith (d ++ "/") p = true) :
    strStartsWith rule p = true := by
  simp only [strStartsWith, List.isPrefixOf_iff_prefix, String.data_append] at h1 h2 ⊢
  exact h1.trans ((List.prefix_append _ _).trans h2)

/-- A rule that excludes a directory path also excludes every path that
extends it past a separator. -/
theorem ruleExcludes_mono (fs : Fs) (ex dp p : String)
    (hd : ruleExcludes fs dp ex = true) (hsub : strStartsWith (dp ++ "/") p = true) :
    ruleExcludes fs p ex = true := by
  unfold ruleExcludes at hd ⊢
  by_cases hg : strContains ex '*'
  · rw [if_pos hg] at hd ⊢
    cases hexp : fs.expand ex with
    | none => simp [hexp] at hd
    | some ps =>
      simp only [hexp, List.any_eq_true] at hd ⊢
      obtain ⟨q, hq, hpre⟩ := hd
      exact ⟨q, hq, strStartsWith_trans_sep hpre hsub⟩
  · rw [if_neg hg] at hd ⊢
    exact strStartsWith_trans_sep hd hsub

/-- The exclusion predicate is monotone down the tree: everything below an
excluded directory is itself excluded. -/
theorem excludesPath_mono (fs : Fs) (exclusions : List String) (dp p : String)
    (hd : excludesPath fs exclusions dp = true)
    (hsub : strStartsWith (dp ++ "/") p = true) :
    excludesPath fs exclusions p = true := by
  unfold excludesPath at hd ⊢
  rw [List.any_eq_true] at hd ⊢
  obtain ⟨ex, hex, hr⟩ := hd
  exact ⟨ex, hex, ruleExcludes_mono fs ex dp p hr hsub⟩

/-- Every entry yielded by the pruned walk of a forest satisfies the
predicate. -/
theorem walkF_pred (pred : String → Bool) :
    ∀ (f : Fsf) (parent : String) (d : Nat), ∀ e ∈ walkF pred parent d f, pred e.path = true := by
  intro f
  induction f with
  | nilF => intro parent d e he; simp [walkF] at he
  | fileC n rest ih =>
    intro parent d e he
    simp only [walkF, List.mem_append] at he
    rcases he with he | he
    · by_cases hp : pred (parent ++ "/" ++ n)
      · rw [if_pos hp] at he
        simp only [List.mem_singleton] at he
        subst he; exact hp
      · rw [if_neg hp] at he; simp at he
    · exact ih parent d e he
  | dirC n cs rest ihcs ihrest =>
    intro parent d e he
    simp only [walkF, List.mem_append] at he
    rcases he with he | he
    · by_cases hp : pred (parent ++ "/" ++ n)
      · rw [if_pos hp] at he
        rcases List.mem_cons.mp he with he | he
        · subst he; exact hp
        · exact ihcs (parent ++ "/" ++ n) (d + 1) e he
      · rw [if_neg hp] at he; simp at he
    · exact ihrest parent d e he

/-- Every entry yielded by the pruned walk from a root satisfies the
predicate. -/
theorem walkTreeF_pred (pred : String → Bool) (rootPath : String) (t : FsTree) :
    ∀ e ∈ walkTreeF pred rootPath t, pred e.path = true := by
  intro e he
  cases t with
  | file =>
    simp only [walkTreeF] at he
    by_cases hp : pred rootPath
    · rw [if_pos hp] at he; simp only [List.mem_singleton] at he; subst he; exact hp
    · rw [if_neg hp] at he; simp at he
  | dir cs =>
    simp only [walkTreeF] at he
    by_cases hp : pred rootPath
    · rw [if_pos hp] at he
      rcases List.mem_cons.mp he with he | he
      · subst he; exact hp
      · exact walkF_pred pred cs rootPath 1 e he
    · rw [if_neg hp] at he; simp at he

/-- Every record produced by the full-backup loop comes from one of the
walked entries, named by `stripSlash`. -/
theorem appendEntries_spec (fs : Fs) :
    ∀ (es : List Entry) (rs : List Record), appendEntries fs es = .ok rs →
      ∀ r ∈ rs, ∃ e ∈ es, r.path = e.path ∧ r.name = stripSlash e.path := by
  intro es
  induction es with
  | nil =>
    intro rs h r hr
    simp only [appendEntries, Except.ok.injEq] at h
    subst h; simp at hr
  | cons e es ih =>
    intro rs h r hr
    simp only [appendEntries] at h
    by_cases hdir : e.isDir = false
    · rw [if_pos hdir] at h
      by_cases hopen : fs.openOk e.path = true
      · rw [if_pos hopen] at h
        by_cases happ : fs.appendOk e.path = true
        · rw [if_pos happ] at h
          cases hrec : appendEntries fs es with
          | error u => rw [hrec] at h; exact Except.noConfusion h
          | ok rs' =>
            rw [hrec] at h
            simp only [Except.ok.injEq] at h
            subst h
            rcases List.mem_cons.mp hr with hr | hr
            · subst hr; exact ⟨e, List.mem_cons_self _ _, rfl, rfl⟩
            · obtain ⟨e', he', h1, h2⟩ := ih rs' hrec r hr
              exact ⟨e', List.mem_cons_of_mem _ he', h1, h2⟩
        · rw [if_neg happ] at h; exact Except.noConfusion h
      · rw [if_neg hopen] at h
        obtain ⟨e', he', h1, h2⟩ := ih rs h r hr
        exact ⟨e', List.mem_cons_of_mem _ he', h1, h2⟩
    · rw [if_neg hdir] at h
      by_cases hdep : e.depth > 0
      · rw [if_pos hdep] at h
        by_cases happ : fs.appendOk e.path = true
        · rw [if_pos happ] at h
          cases hrec : appendEntries fs es with
          | error u => rw [hrec] at h; exact Except.noConfusion h
          | ok rs' =>
            rw [hrec] at h
            simp only [Except.ok.injEq] at h
            subst h
            rcases List.mem_cons.mp hr with hr | hr
            · subst hr; exact ⟨e, List.mem_cons_self _ _, rfl, rfl⟩
            · obtain ⟨e', he', h1, h2⟩ := ih rs' hrec r hr
              exact ⟨e', List.mem_cons_of_mem _ he', h1, h2⟩
        · rw [if_neg happ] at h; exact Except.noConfusion h
      · rw [if_neg hdep] at h
        obtain ⟨e', he', h1, h2⟩ := ih rs h r hr
        exact ⟨e', List.mem_cons_of_mem _ he', h1, h2⟩

/-- Every record produced by the timestamp-gated loop comes from one of
the walked entries, named by `stripSlash`. -/
theorem appendEntriesTs_spec (fs : Fs) (ref : Nat) :
    ∀ (es : List Entry) (rs : List Record), appendEntriesTs fs ref es = .ok rs →
      ∀ r ∈ rs, ∃ e ∈ es, r.path = e.path ∧ r.name = stripSlash e.path := by
  intro es
  induction es with
  | nil =>
    intro rs h r hr
    simp only [appendEntriesTs, Except.ok.injEq] at h
    subst h; simp at hr
  | cons e es ih =>
    intro rs h r hr
    have tailCase : appendEntriesTs fs ref es = Except.ok rs →
        ∃ e' ∈ e :: es, r.path = e'.path ∧ r.name = stripSlash e'.path := by
      intro hh
      obtain ⟨e', he', h1, h2⟩ := ih rs hh r hr
      exact ⟨e', List.mem_cons_of_mem _ he', h1, h2⟩
    have headCase : ∀ u : Unit,
        (match appendEntriesTs fs ref es with
          | Except.ok rs' => Except.ok (⟨e.path, stripSlash e.path⟩ :: rs')
          | Except.error u => Except.error u) = Except.ok rs →
        ∃ e' ∈ e :: es, r.path = e'.path ∧ r.name = stripSlash e'.path := by
      intro _ hh
      cases hrec : appendEntriesTs fs ref es with
      | error u => rw [hrec] at hh; exact Except.noConfusion hh
      | ok rs' =>
        rw [hrec] at hh
        simp only [Except.ok.injEq] at hh
        subst hh
        rcases List.mem_cons.mp hr with hr | hr
        · subst hr; exact ⟨e, List.mem_cons_self _ _, rfl, rfl⟩
        · obtain ⟨e', he', h1, h2⟩ := ih rs' hrec r hr
          exact ⟨e', List.mem_cons_of_mem _ he', h1, h2⟩
    simp only [appendEntriesTs] at h
    by_cases hdir : e.isDir = false
    · rw [if_pos hdir] at h
      cases hmt : fs.mtime e.path with
      | none => simp only [hmt] at h; exact tailCase h
      | some m =>
        simp only [hmt] at h
        by_cases hlt : ref < m
        · rw [if_pos hlt] at h
          by_cases hopen : fs.openOk e.path = true
          · rw [if_pos hopen] at h
            by_cases happ : fs.appendOk e.path = true
            · rw [if_pos happ] at h; exact headCase () h
            · rw [if_neg happ] at h; exact Except.noConfusion h
          · rw [if_neg hopen] at h; exact tailCase h
        · rw [if_neg hlt] at h; exact tailCase h
    · rw [if_neg hdir] at h
      by_cases hdep : e.depth > 0
      · rw [if_pos hdep] at h
        cases hct : fs.ctime e.path with
        | none => simp only [hct] at h; exact tailCase h
        | some c =>
          simp only [hct] at h
          by_cases hlt : ref < c
          · rw [if_pos hlt] at h
            by_cases happ : fs.appendOk e.path = true
            · rw [if_pos happ] at h; exact headCase () h
            · rw [if_neg happ] at h; exact Except.noConfusion h
          · rw [if_neg hlt] at h; exact tailCase h
      · rw [if_neg hdep] at h; exact tailCase h

/-- With every open and append succeeding, the timestamp-gated loop
archives exactly the entries passing their timestamp gate, in walk
order. -/
theorem appendEntriesTs_eq (fs : Fs) (hopen : ∀ q, fs.openOk q = true)
    (happ : ∀ q, fs.appendOk q = true) (ref : Nat) :
    ∀ es : List Entry, appendEntriesTs fs ref es = .ok (es.filterMap (tsRecord fs ref)) := by
  intro es
  induction es with
  | nil => rfl
  | cons e es ih =>
    by_cases hdir : e.isDir = false
    · cases hmt : fs.mtime e.path with
      | none => simp [appendEntriesTs, tsRecord, List.filterMap_cons, hdir, hmt, ih]
      | some m =>
        by_cases hlt : ref < m
        · simp [appendEntriesTs, tsRecord, List.filterMap_cons, hdir, hmt, hlt,
            hopen e.path, happ e.path, ih]
        · simp [appendEntriesTs, tsRecord, List.filterMap_cons, hdir, hmt, hlt, ih]
    · have hdir' : e.isDir = true := by
        cases hv : e.isDir
        · exact absurd hv hdir
        · rfl
      by_cases hdep : e.depth > 0
      · cases hct : fs.ctime e.path with
        | none => simp [appendEntriesTs, tsRecord, List.filterMap_cons, hdir', hct, hdep, ih]
        | some c =>
          by_cases hlt : ref < c
          · simp [appendEntriesTs, tsRecord, List.filterMap_cons, hdir', hct, hdep, hlt,
              happ e.path, ih]
          · simp [appendEntriesTs, tsRecord, List.filterMap_cons, hdir', hct, hdep, hlt, ih]
      · simp [appendEntriesTs, tsRecord, List.filterMap_cons, hdir', hdep, ih]

/-- Staging does not touch an already-set `original_backup_time`. -/
theorem stageOriginal_of_some (m : BackupMetadata) (ct t0 : Nat)
    (hm : m.original_backup_time = some t0) : stageOriginal m ct = m := by
  unfold stageOriginal
  rw [hm]
  simp

/-- Staging never touches `backup_history`. -/
theorem stageOriginal_history (m : BackupMetadata) (ct : Nat) :
    (stageOriginal m ct).backup_history = m.backup_history := by
  unfold stageOriginal
  split <;> rfl

/-- Staging never touches `last_backup_time`. -/
theorem stageOriginal_last (m : BackupMetadata) (ct : Nat) :
    (stageOriginal m ct).last_backup_time = m.last_backup_time := by
  unfold stageOriginal
  split <;> rfl

/-- When every requested root is missing, the per-root loop of
`backup_selected_directories` archives nothing and succeeds, for every
policy. -/
theorem backupDirsPlain_missing (fs : Fs) (btype : BackupType) (m : BackupMetadata)
    (ct : Nat) : ∀ dirs : List String, (∀ d ∈ dirs, fs.lookup d = none) →
      backupDirsPlain fs btype m ct dirs = .ok [] := by
  intro dirs
  induction dirs with
  | nil => intro _; rfl
  | cons d ds ih =>
    intro hmiss
    have hd := hmiss d (List.mem_cons_self _ _)
    have hds := ih (fun x hx => hmiss x (List.mem_cons_of_mem _ hx))
    cases btype <;>
      simp [backupDirsPlain, backup_directory, incremental_backup, differential_backup,
        hd, hds]

/-- C7: an entry whose required timestamp is unreadable (modified time
for a file, creation time for a directory) is skipped by the
timestamp-gated loop exactly as if it were not present: no record is
written for it and no error is raised. -/
theorem unreadable_timestamp_skipped (fs : Fs) (ref : Nat) (e : Entry)
    (h : (e.isDir = false ∧ fs.mtime e.path = none) ∨
         (e.isDir = true ∧ fs.ctime e.path = none)) :
    ∀ es1 es2 : List Entry,
      appendEntriesTs fs ref (es1 ++ e :: es2) = appendEntriesTs fs ref (es1 ++ es2) := by
  intro es1
  induction es1 with
  | nil =>
    intro es2
    simp only [List.nil_append]
    rcases h with ⟨hdir, hmt⟩ | ⟨hdir, hct⟩
    · simp [appendEntriesTs, hdir, hmt]
    · by_cases hdep : e.depth > 0
      · simp [appendEntriesTs, hdir, hct, hdep]
      · simp [appendEntriesTs, hdir, hdep]
  | cons e1 es1 ih =>
    intro es2
    simp only [List.cons_append]
    simp only [appendEntriesTs]
    rw [ih es2]

/-- Witness for C7 at a concrete entry with unreadable modified time. -/
theorem unreadable_timestamp_skipped_witness :
    appendEntriesTs fsTriv 0 ([] ++ (⟨"/d/f", false, 1⟩ : Entry) :: []) =
      appendEntriesTs fsTriv 0 ([] ++ []) :=
  unreadable_timestamp_skipped fsTriv 0 ⟨"/d/f", false, 1⟩ (Or.inl ⟨rfl, rfl⟩) [] []

/-- C3: a metadata parse error, a fatal archive-append error, or a
failing finish each leaves the persisted metadata file exactly as it was:
the save is only reached after the finish succeeds. Stated for both
orchestrators. -/
theorem metadata_untouched_before_finish (fs : Fs) (ct : Nat) (finishOk saveOk : Bool) :
    (∀ (dirs : List String) (btype : BackupType) (file : MetaFile),
      (load_backup_metadata file = .error () ∨
       (∃ m0, load_backup_metadata file = .ok m0 ∧
          backupDirsPlain fs btype (stageOriginal m0 ct) ct dirs = .error ()) ∨
       finishOk = false) →
      (runSelectedBackup fs dirs btype file ct finishOk saveOk).2 = file) ∧
    (∀ (btype : BackupType) (isRoot : Bool) (file : MetaFile),
      (load_backup_metadata file = .error () ∨
       (∃ m0, load_backup_metadata file = .ok m0 ∧
          backupDirsExcl fs btype (stageOriginal m0 ct) ct (systemRoots isRoot) = .error ()) ∨
       finishOk = false) →
      (runSystemBackup fs btype isRoot file ct finishOk saveOk).2 = file) := by
  constructor
  · intro dirs btype file h
    cases hload : load_backup_metadata file with
    | error u => simp [runSelectedBackup, hload]
    | ok m0 =>
      rcases h with h | ⟨m0', hm0', hdirs⟩ | hfin
      · rw [hload] at h; exact Except.noConfusion h
      · rw [hload] at hm0'
        simp only [Except.ok.injEq] at hm0'
        subst hm0'
        simp [runSelectedBackup, hload, hdirs]
      · subst hfin
        cases hbd : backupDirsPlain fs btype (stageOriginal m0 ct) ct dirs with
        | error u => simp [runSelectedBackup, hload, hbd]
        | ok recs => simp [runSelectedBackup, hload, hbd]
  · intro btype isRoot file h
    cases hload : load_backup_metadata file with
    | error u => simp [runSystemBackup, hload]
    | ok m0 =>
      rcases h with h | ⟨m0', hm0', hdirs⟩ | hfin
      · rw [hload] at h; exact Except.noConfusion h
      · rw [hload] at hm0'
        simp only [Except.ok.injEq] at hm0'
        subst hm0'
        simp [runSystemBackup, hload, hdirs]
      · subst hfin
        cases hbd : backupDirsExcl fs btype (stageOriginal m0 ct) ct (systemRoots isRoot) with
        | error u => simp [runSystemBackup, hload, hbd]
        | ok recs => simp [runSystemBackup, hload, hbd]

/-- Witness for C3: a run whose finish fails leaves an absent metadata
file absent. -/
theorem metadata_untouched_before_finish_witness :
    (runSelectedBackup fsTriv [] .Full .absent 5 false true).2 = .absent :=
  (metadata_untouched_before_finish fsTriv 5 false true).1 [] .Full .absent
    (Or.inr (Or.inr rfl))

/-- C6: a run starting with `original_backup_time` already set leaves it
unchanged in whatever metadata ends up persisted, for every policy and
both orchestrators (a failing save is excluded, as it persists
nothing). -/
theorem original_backup_time_preserved (fs : Fs) (ct : Nat) (finishOk : Bool)
    (m : BackupMetadata) (t0 : Nat) (hm : m.original_backup_time = some t0) :
    (∀ (dirs : List String) (btype : BackupType),
      ∃ m', (runSelectedBackup fs dirs btype (.valid m) ct finishOk true).2 = .valid m' ∧
        m'.original_backup_time = some t0) ∧
    (∀ (btype : BackupType) (isRoot : Bool),
      ∃ m', (runSystemBackup fs btype isRoot (.valid m) ct finishOk true).2 = .valid m' ∧
        m'.original_backup_time = some t0) := by
  have hstage : stageOriginal m ct = m := stageOriginal_of_some m ct t0 hm
  constructor
  · intro dirs btype
    cases hbd : backupDirsPlain fs btype m ct dirs with
    | error u =>
      exact ⟨m, by simp [runSelectedBackup, load_backup_metadata, hstage, hbd], hm⟩
    | ok recs =>
      cases finishOk with
      | false =>
        exact ⟨m, by simp [runSelectedBackup, load_backup_metadata, hstage, hbd], hm⟩
      | true =>
        refine ⟨{ m with last_backup_time := some ct }, ?_, hm⟩
        simp [runSelectedBackup, load_backup_metadata, hstage, hbd]
  · intro btype isRoot
    cases hbd : backupDirsExcl fs btype m ct (systemRoots isRoot) with
    | error u =>
      exact ⟨m, by simp [runSystemBackup, load_backup_metadata, hstage, hbd], hm⟩
    | ok recs =>
      cases finishOk with
      | false =>
        exact ⟨m, by simp [runSystemBackup, load_backup_metadata, hstage, hbd], hm⟩
      | true =>
        refine ⟨{ m with last_backup_time := some ct }, ?_, hm⟩
        simp [runSystemBackup, load_backup_metadata, hstage, hbd]

/-- Witness for C6 at a concrete metadata record with
`original_backup_time = 7`. -/
theorem original_backup_time_preserved_witness :
    ∃ m', (runSelectedBackup fsTriv ["/d"] .Incremental
        (.valid ⟨some 3, some 7, []⟩) 100 true true).2 = .valid m' ∧
      m'.original_backup_time = some 7 :=
  (original_backup_time_preserved fsTriv 100 true ⟨some 3, some 7, []⟩ 7 rfl).1
    ["/d"] .Incremental

/-- C9: `backup_history` is persisted exactly as loaded — no step between
load and save touches it, so the saved mapping is the loaded one, or the
empty default when no file existed. -/
theorem backup_history_preserved (fs : Fs) (dirs : List String) (btype : BackupType)
    (ct : Nat) (finishOk : Bool) (m : BackupMetadata) :
    (∃ m', (runSelectedBackup fs dirs btype (.valid m) ct finishOk true).2 = .valid m' ∧
        m'.backup_history = m.backup_history) ∧
    ((runSelectedBackup fs dirs btype .absent ct finishOk true).2 = .absent ∨
     ∃ m', (runSelectedBackup fs dirs btype .absent ct finishOk true).2 = .valid m' ∧
        m'.backup_history = []) := by
  constructor
  · cases hbd : backupDirsPlain fs btype (stageOriginal m ct) ct dirs with
    | error u =>
      exact ⟨m, by simp [runSelectedBackup, load_backup_metadata, hbd], rfl⟩
    | ok recs =>
      cases finishOk with
      | false =>
        exact ⟨m, by simp [runSelectedBackup, load_backup_metadata, hbd], rfl⟩
      | true =>
        refine ⟨{ stageOriginal m ct with last_backup_time := some ct }, ?_, ?_⟩
        · simp [runSelectedBackup, load_backup_metadata, hbd]
        · exact stageOriginal_history m ct
  · cases hbd : backupDirsPlain fs btype (stageOriginal ⟨none, none, []⟩ ct) ct dirs with
    | error u =>
      exact Or.inl (by simp [runSelectedBackup, load_backup_metadata, hbd])
    | ok recs =>
      cases finishOk with
      | false =>
        exact Or.inl (by simp [runSelectedBackup, load_backup_metadata, hbd])
      | true =>
        refine Or.inr ⟨{ stageOriginal ⟨none, none, []⟩ ct with
          last_backup_time := some ct }, ?_, ?_⟩
        · simp [runSelectedBackup, load_backup_metadata, hbd]
        · exact stageOriginal_history ⟨none, none, []⟩ ct

/-- C10: a run whose requested roots are all missing still succeeds: the
(empty) archive is finalized, and the persisted metadata carries this
run's timestamp as `last_backup_time`, becoming the reference of later
incremental runs. -/
theorem missing_roots_run_succeeds (fs : Fs) (dirs : List String) (btype : BackupType)
    (file : MetaFile) (ct : Nat) (m0 : BackupMetadata)
    (hmiss : ∀ d ∈ dirs, fs.lookup d = none)
    (hload : load_backup_metadata file = .ok m0) :
    (runSelectedBackup fs dirs btype file ct true true).1 = .ok [] ∧
    ∃ m', (runSelectedBackup fs dirs btype file ct true true).2 = .valid m' ∧
      load_backup_metadata (.valid m') = .ok m' ∧
      m'.last_backup_time = some ct := by
  have hbd := backupDirsPlain_missing fs btype (stageOriginal m0 ct) ct dirs hmiss
  refine ⟨?_, { stageOriginal m0 ct with last_backup_time := some ct }, ?_, rfl, rfl⟩
  · simp [runSelectedBackup, hload, hbd]
  · simp [runSelectedBackup, hload, hbd]

/-- Witness for C10: every root missing in the trivial filesystem. -/
theorem missing_roots_run_succeeds_witness :
    (runSelectedBackup fsTriv ["/a", "/b"] .Differential .absent 42 true true).1 = .ok [] ∧
    ∃ m', (runSelectedBackup fsTriv ["/a", "/b"] .Differential .absent 42 true true).2 =
        .valid m' ∧
      load_backup_metadata (.valid m') = .ok m' ∧
      m'.last_backup_time = some 42 :=
  missing_roots_run_succeeds fsTriv ["/a", "/b"] .Differential .absent 42 ⟨none, none, []⟩
    (fun d _ => rfl) rfl

/-- A record emitted by the per-entry timestamp gate carries the entry's
path and `stripSlash` name. -/
theorem tsRecord_path (fs : Fs) (ref : Nat) (e : Entry) (r : Record)
    (h : tsRecord fs ref e = some r) : r = ⟨e.path, stripSlash e.path⟩ := by
  unfold tsRecord at h
  repeat' split at h
  all_goals first
    | (injection h with h; exact h.symm)
    | exact Option.noConfusion h

/-- C5: a file entry reached by an incremental run with a readable
modified time is archived iff that time is strictly greater than
`last_backup_time` (0 when absent); equality with the reference
excludes the entry. -/
theorem incremental_file_selection (fs : Fs) (m : BackupMetadata) (d : String)
    (t : FsTree) (ct : Nat)
    (hopen : ∀ q, fs.openOk q = true) (happ : ∀ q, fs.appendOk q = true)
    (hlk : fs.lookup d = some t)
    (hnd : ((walkTreeF (fun _ => true) d t).map Entry.path).Nodup)
    (e : Entry) (he : e ∈ walkTreeF (fun _ => true) d t) (hf : e.isDir = false)
    (mt : Nat) (hmt : fs.mtime e.path = some mt) :
    ∃ rs, incremental_backup fs d m ct = .ok rs ∧
      (((⟨e.path, stripSlash e.path⟩ : Record) ∈ rs) ↔ m.last_backup_time.getD 0 < mt) ∧
      (mt = m.last_backup_time.getD 0 →
        ((⟨e.path, stripSlash e.path⟩ : Record) ∉ rs)) := by
  have heq : incremental_backup fs d m ct =
      .ok ((walkTreeF (fun _ => true) d t).filterMap
        (tsRecord fs (m.last_backup_time.getD 0))) := by
    unfold incremental_backup
    simp only [hlk]
    exact appendEntriesTs_eq fs hopen happ _ _
  have hiff : ((⟨e.path, stripSlash e.path⟩ : Record) ∈
      (walkTreeF (fun _ => true) d t).filterMap
        (tsRecord fs (m.last_backup_time.getD 0))) ↔
      m.last_backup_time.getD 0 < mt := by
    constructor
    · intro hmem
      rw [List.mem_filterMap] at hmem
      obtain ⟨e', he', hrec⟩ := hmem
      have hpe := tsRecord_path fs _ e' _ hrec
      have hpath : e'.path = e.path := (congrArg Record.path hpe).symm
      have heqe : e' = e := List.inj_on_of_nodup_map hnd he' he hpath
      subst heqe
      unfold tsRecord at hrec
      rw [if_pos hf] at hrec
      simp only [hmt] at hrec
      by_cases hlt : m.last_backup_time.getD 0 < mt
      · exact hlt
      · rw [if_neg hlt] at hrec; exact Option.noConfusion hrec
    · intro hlt
      rw [List.mem_filterMap]
      refine ⟨e, he, ?_⟩
      unfold tsRecord
      rw [if_pos hf]
      simp only [hmt]
      rw [if_pos hlt]
  refine ⟨_, heq, hiff, fun heqt hmem => absurd (hiff.mp hmem) (by omega)⟩

/-- Witness for C5: `last_backup_time = 5`, file modified at 500. -/
theorem incremental_file_selection_witness :
    ∃ rs, incremental_backup fsOneFile "/d" ⟨some 5, none, []⟩ 100 = .ok rs ∧
      (((⟨"/d/f", stripSlash "/d/f"⟩ : Record) ∈ rs) ↔
        (⟨some 5, none, []⟩ : BackupMetadata).last_backup_time.getD 0 < 500) ∧
      (500 = (⟨some 5, none, []⟩ : BackupMetadata).last_backup_time.getD 0 →
        ((⟨"/d/f", stripSlash "/d/f"⟩ : Record) ∉ rs)) :=
  incremental_file_selection fsOneFile ⟨some 5, none, []⟩ "/d" (.dir (.fileC "f" .nilF))
    100 (fun _ => rfl) (fun _ => rfl) rfl (by decide) ⟨"/d/f", false, 1⟩ (by decide) rfl
    500 rfl

/-- C1 counterexample: with no persisted metadata, a Differential run
over `/d` archives nothing although the non-excluded file `/d/f` is
reachable with readable modified time 500 — the comparison reference is
the staged run timestamp, not the claimed fallback 0. -/
theorem first_run_differential_cex :
    (runSelectedBackup fsOneFile ["/d"] .Differential .absent 1000 true true).1 =
        .ok [] ∧
    fsOneFile.lookup "/d" = some (.dir (.fileC "f" .nilF)) ∧
    fsOneFile.mtime "/d/f" = some 500 ∧
    fsOneFile.openOk "/d/f" = true :=
  ⟨rfl, rfl, rfl, rfl⟩

/-- C1 amended: with no persisted metadata, an Incremental run selects
against reference 0 (full inclusion of files with positive readable
modified time), but a Differential run selects against the run timestamp,
because `original_backup_time` is staged to it before archiving. -/
theorem first_run_policies (fs : Fs) (d : String) (t : FsTree) (ct : Nat)
    (hopen : ∀ q, fs.openOk q = true) (happ : ∀ q, fs.appendOk q = true)
    (hlk : fs.lookup d = some t) :
    (runSelectedBackup fs [d] .Incremental .absent ct true true).1 =
      .ok ((walkTreeF (fun _ => true) d t).filterMap (tsRecord fs 0)) ∧
    (runSelectedBackup fs [d] .Differential .absent ct true true).1 =
      .ok ((walkTreeF (fun _ => true) d t).filterMap (tsRecord fs ct)) := by
  have hinc := appendEntriesTs_eq fs hopen happ 0 (walkTreeF (fun _ => true) d t)
  have hdiff := appendEntriesTs_eq fs hopen happ ct (walkTreeF (fun _ => true) d t)
  constructor
  · simp [runSelectedBackup, load_backup_metadata, backupDirsPlain, incremental_backup,
      stageOriginal, hlk, hinc]
  · simp [runSelectedBackup, load_backup_metadata, backupDirsPlain, differential_backup,
      stageOriginal, hlk, hdiff]

/-- Witness for C1 amended at the one-file filesystem: the Incremental
run archives `/d/f`, the Differential run archives nothing. -/
theorem first_run_policies_witness :
    (runSelectedBackup fsOneFile ["/d"] .Incremental .absent 1000 true true).1 =
      .ok ((walkTreeF (fun _ => true) "/d" (.dir (.fileC "f" .nilF))).filterMap
        (tsRecord fsOneFile 0)) ∧
    (runSelectedBackup fsOneFile ["/d"] .Differential .absent 1000 true true).1 =
      .ok ((walkTreeF (fun _ => true) "/d" (.dir (.fileC "f" .nilF))).filterMap
        (tsRecord fsOneFile 1000)) :=
  first_run_policies fsOneFile "/d" (.dir (.fileC "f" .nilF)) 1000
    (fun _ => rfl) (fun _ => rfl) rfl

/-- C2 counterexample: the glob rule `/home/*/.cache`, expanding to
`/home/alice/.cache`, excludes the candidate `/home/alice/.cachefoo`
although that candidate neither equals nor is a path-component descendant
of any expanded path — the implementation tests plain string prefixes. -/
theorem glob_exclusion_cex :
    ruleExcludes fsGlob "/home/alice/.cachefoo" "/home/*/.cache" = true ∧
    specGlobExcludes ["/home/alice/.cache"] "/home/alice/.cachefoo" = false ∧
    fsGlob.expand "/home/*/.cache" = some ["/home/alice/.cache"] := by
  refine ⟨by decide, by decide, rfl⟩

/-- C2 amended: a glob rule excludes a candidate exactly when its current
expansion contains a path that is a string prefix of the candidate
(path-component nesting is not required). -/
theorem glob_exclusion_semantics (fs : Fs) (ex cand : String)
    (hglob : strContains ex '*' = true) :
    ruleExcludes fs cand ex = true ↔
      ∃ ps, fs.expand ex = some ps ∧ ∃ q ∈ ps, strStartsWith q cand = true := by
  unfold ruleExcludes
  rw [if_pos hglob]
  cases hexp : fs.expand ex with
  | none => simp
  | some ps => simp [List.any_eq_true]

/-- Witness for C2 amended at the concrete glob rule and a nested
candidate. -/
theorem glob_exclusion_semantics_witness :
    ruleExcludes fsGlob "/home/alice/.cache/x" "/home/*/.cache" = true ↔
      ∃ ps, fsGlob.expand "/home/*/.cache" = some ps ∧
        ∃ q ∈ ps, strStartsWith q "/home/alice/.cache/x" = true :=
  glob_exclusion_semantics fsGlob "/home/*/.cache" "/home/alice/.cache/x" (by decide)

/-- C4: no record archived by the exclusion-filtered walks has an
excluded path, no record lies below a path-separator under any excluded
directory path, and the walk does not descend into an excluded
directory. -/
theorem exclusions_respected (fs : Fs) (dirPath : String) (exclusions : List String) :
    (∀ rs, backup_with_exclusions fs dirPath exclusions = .ok rs →
      ∀ r ∈ rs, excludesPath fs exclusions r.path = false ∧
        ∀ dp, excludesPath fs exclusions dp = true →
          strStartsWith (dp ++ "/") r.path = false) ∧
    (∀ rs m ct, incremental_backup_with_exclusions fs dirPath exclusions m ct = .ok rs →
      ∀ r ∈ rs, excludesPath fs exclusions r.path = false) ∧
    (∀ (parent : String) (d : Nat) (n : String) (cs rest : Fsf),
      excludesPath fs exclusions (parent ++ "/" ++ n) = true →
      walkF (fun p => !excludesPath fs exclusions p) parent d (.dirC n cs rest) =
        walkF (fun p => !excludesPath fs exclusions p) parent d rest) := by
  refine ⟨?_, ?_, ?_⟩
  · intro rs h r hr
    unfold backup_with_exclusions at h
    cases hlk : fs.lookup dirPath with
    | none =>
      simp only [hlk, Except.ok.injEq] at h
      subst h; simp at hr
    | some t =>
      simp only [hlk] at h
      obtain ⟨e, he, hp, hn⟩ := appendEntries_spec fs _ rs h r hr
      have hpred := walkTreeF_pred _ dirPath t e he
      have hfalse : excludesPath fs exclusions e.path = false := by
        simpa using hpred
      constructor
      · rw [hp]; exact hfalse
      · intro dp hdp
        cases hy : strStartsWith (dp ++ "/") r.path
        · rfl
        · exfalso
          rw [hp] at hy
          have hcontr := excludesPath_mono fs exclusions dp e.path hdp hy
          rw [hfalse] at hcontr
          exact Bool.noConfusion hcontr
  · intro rs m ct h r hr
    unfold incremental_backup_with_exclusions at h
    cases hlk : fs.lookup dirPath with
    | none =>
      simp only [hlk, Except.ok.injEq] at h
      subst h; simp at hr
    | some t =>
      simp only [hlk] at h
      obtain ⟨e, he, hp, hn⟩ := appendEntriesTs_spec fs _ _ rs h r hr
      have hpred := walkTreeF_pred _ dirPath t e he
      rw [hp]
      simpa using hpred
  · intro parent d n cs rest hexcl
    simp [walkF, hexcl]

/-- Witness for C4 at the `/r` filesystem with the rule `/r/log`: the
archived record `/r/a` is not excluded, does not lie under the excluded
directory, and the walk skips the `/r/log` subtree entirely. -/
theorem exclusions_respected_witness :
    excludesPath fsExcl ["/r/log"] "/r/a" = false ∧
    strStartsWith ("/r/log" ++ "/") "/r/a" = false ∧
    walkF (fun p => !excludesPath fsExcl ["/r/log"] p) "/r" 1
        (.dirC "log" (.fileC "x" .nilF) .nilF) =
      walkF (fun p => !excludesPath fsExcl ["/r/log"] p) "/r" 1 .nilF := by
  have h := exclusions_respected fsExcl "/r" ["/r/log"]
  exact ⟨(h.1 [⟨"/r/a", "r/a"⟩] rfl ⟨"/r/a", "r/a"⟩ (by decide)).1,
    (h.1 [⟨"/r/a", "r/a"⟩] rfl ⟨"/r/a", "r/a"⟩ (by decide)).2 "/r/log" (by decide),
    h.2.2 "/r" 1 "log" (.fileC "x" .nilF) .nilF (by decide)⟩

/-- C8: every record archived by `backup_directory` is named by its
absolute path with the leading separator removed, and unchanged when the
path has no leading separator. -/
theorem archive_name_strips_separator (fs : Fs) (d : String) (rs : List Record)
    (h : backup_directory fs d = .ok rs) :
    ∀ r ∈ rs,
      (strStartsWith "/" r.path = true → r.name = r.path.drop 1) ∧
      (strStartsWith "/" r.path = false → r.name = r.path) := by
  intro r hr
  unfold backup_directory at h
  cases hlk : fs.lookup d with
  | none =>
    simp only [hlk, Except.ok.injEq] at h
    subst h; simp at hr
  | some t =>
    simp only [hlk] at h
    obtain ⟨e, he, hp, hn⟩ := appendEntries_spec fs _ rs h r hr
    constructor
    · intro hs
      rw [hn, hp]
      unfold stripSlash
      rw [hp] at hs
      rw [if_pos hs]
    · intro hs
      rw [hn, hp]
      unfold stripSlash
      rw [hp] at hs
      rw [if_neg (by simp [hs])]

/-- Witness for C8 at the archived file `/d/f`, named `d/f`. -/
theorem archive_name_strips_separator_witness :
    (strStartsWith "/" "/d/f" = true → ("d/f" : String) = "/d/f".drop 1) ∧
    (strStartsWith "/" "/d/f" = false → ("d/f" : String) = "/d/f") :=
  archive_name_strips_separator fsOneFile "/d" [⟨"/d/f", "d/f"⟩] rfl
    ⟨"/d/f", "d/f"⟩ (by decide)
